import Mathlib

/-!
Verification development for the DebugAssistant repository.

Part 1 embeds the command classifier, `EnhancedCommandProcessor` of
`src/command_processor.py`, as pure functions over `List Char`.
Part 2 embeds the speech-output controller, `EnhancedVoiceManager` of
`src/src/voice_manager.py`: its chunking function as a pure function and
its worker/interrupt/resume protocol as a deterministic transition system.

Modelling conventions: Python strings are `List Char`; `str.lower()` is a
character-wise ASCII lowering (`Char.toLower`), `str.strip()` removes
leading and trailing whitespace characters, `str.split()` splits on runs
of whitespace, and the containment test `needle in hay` is the boolean
substring test `substr_in`.  The float comparison
`matched_words / len(words) >= 0.7` is modelled by the exact rational
comparison `7 * len <= 10 * matched`, which agrees with the IEEE-754
comparison for every word count that occurs (the nearest fraction m/n with
a small denominator is far further from 0.7 than half an ulp of the double
nearest to 0.7).
-/

set_option autoImplicit false
set_option maxRecDepth 8000

namespace DebugAssistant

/-- A Python string, modelled as its list of characters. -/
abbrev Text := List Char

/-- Coercion from Lean string literals to the `Text` model. -/
def str (s : String) : Text := s.data

/-- `str.lower()`: character-wise ASCII lowering. -/
def lowerT (t : Text) : Text := t.map Char.toLower

/-- `str.strip()`: drop leading and trailing whitespace. -/
def strip (t : Text) : Text :=
  ((t.dropWhile Char.isWhitespace).reverse.dropWhile Char.isWhitespace).reverse

/-- The normalisation `text.lower().strip()` performed at the top of
`parse_command`. -/
def normalize (t : Text) : Text := strip (lowerT t)

/-- Python's substring containment `needle in hay`. -/
def substr_in (needle : Text) : Text → Bool
  | [] => needle.isEmpty
  | c :: t => needle.isPrefixOf (c :: t) || substr_in needle t

/-- Python's `str.split()`: the maximal whitespace-free runs. -/
def pysplit (t : Text) : List Text :=
  (t.splitOnP Char.isWhitespace).filter (fun w => !w.isEmpty)

/-! The keyword table `self.commands` of `EnhancedCommandProcessor.__init__`. -/

/-- `commands['voice_control']['stop']`. -/
def stop_phrases : List Text :=
  [str "stop", str "quiet", str "interrupt", str "silence", str "shut up",
   str "be quiet", str "stop talking", str "pause", str "hold on", str "wait"]

/-- `commands['voice_control']['resume']`. -/
def resume_phrases : List Text :=
  [str "continue", str "resume", str "go on", str "keep talking"]

/-- `commands['voice_control']['read']`. -/
def read_phrases : List Text :=
  [str "read", str "tell me", str "what does it say", str "read this",
   str "analyze this", str "explain this"]

/-- `commands['screen_reading']['screen']`. -/
def screen_words : List Text :=
  [str "screen", str "display", str "window", str "show me"]

/-- `commands['screen_reading']['code']`. -/
def code_words : List Text :=
  [str "code", str "editor", str "program", str "script", str "function"]

/-- `commands['vscode']['keywords']`. -/
def vscode_keywords : List Text :=
  [str "vscode", str "vs code", str "visual studio code", str "vs", str "editor"]

/-- `commands['vscode']['actions']['create']`. -/
def vscode_create_words : List Text :=
  [str "create", str "make", str "new", str "generate"]

/-- `commands['vscode']['actions']['workspace']`. -/
def vscode_workspace_words : List Text :=
  [str "workspace", str "project", str "folder", str "directory"]

/-- `commands['browser']['keywords']`. -/
def browser_keywords : List Text :=
  [str "chrome", str "firefox", str "browser", str "web", str "internet"]

/-- `commands['browser']['actions']['private']`. -/
def browser_private_words : List Text :=
  [str "private", str "incognito", str "secret"]

/-- `commands['browser']['actions']['search']`, also the hardcoded list in
`_extract_search_terms`. -/
def search_keywords : List Text :=
  [str "search", str "find", str "look up", str "google"]

/-- `commands['window']['keywords']`. -/
def window_keywords : List Text :=
  [str "window", str "screen", str "application", str "app"]

/-- `commands['window']['actions']`, in dict insertion order. -/
def window_actions : List (Text × List Text) :=
  [(str "maximize", [str "maximize", str "make big", str "full screen", str "enlarge"]),
   (str "minimize", [str "minimize", str "make small", str "hide"]),
   (str "restore", [str "restore", str "normal size", str "reset size"]),
   (str "switch", [str "switch to", str "change to", str "go to"])]

/-- `commands['system']['keywords']`. -/
def system_keywords : List Text :=
  [str "system", str "computer", str "pc"]

/-- `commands['system']['actions']`, in dict insertion order. -/
def system_actions : List (Text × List Text) :=
  [(str "volume", [str "volume", str "sound", str "audio"]),
   (str "brightness", [str "brightness", str "screen light"]),
   (str "shutdown", [str "shutdown", str "turn off", str "power off"]),
   (str "restart", [str "restart", str "reboot", str "reload"])]

/-- The keyword list of `_extract_name`. -/
def name_keywords : List Text :=
  [str "called", str "named", str "name", str "workspace", str "project"]

/-- The app list of `_detect_app`. -/
def app_names : List Text :=
  [str "vscode", str "chrome", str "firefox", str "notepad"]

/-- The spec's fixed category enumeration.  The source tags each returned
dict with the corresponding string in its `"type"` field; the source's tag
for `editor` is the string `"vscode"`. -/
inductive Category where
  | voice
  | screen
  | editor
  | browser
  | window
  | system
  | ai_query
  deriving DecidableEq

/-- A parameter value: string, number or boolean. -/
inductive PVal where
  | s (v : Text)
  | n (v : Nat)
  | b (v : Bool)
  deriving DecidableEq

/-- The classifier's output: the `(type, action, params)` dict returned by
`parse_command`, with `params` keeping the dict's insertion order. -/
structure Intent where
  category : Category
  action : Text
  params : List (Text × PVal)
  deriving DecidableEq

/-- `_fuzzy_match_phrases`: literal substring, or, for multi-word phrases,
at least 70 % of the phrase's words occurring among the text's words. -/
def fuzzy_match_phrases (text : Text) (phrases : List Text) : Bool :=
  phrases.any (fun phrase =>
    substr_in phrase text ||
    (let ws := pysplit phrase
     decide (1 < ws.length) &&
     decide (7 * ws.length ≤ 10 * ws.countP (fun w => (pysplit text).contains w))))

/-- `_extract_name`: the word following the first naming keyword that is
not the last word. -/
def extract_name_words : List Text → Text
  | [] => []
  | [_] => []
  | w :: next :: rest =>
    if name_keywords.contains w then next else extract_name_words (next :: rest)

/-- `_extract_name` on the raw text. -/
def extract_name (text : Text) : Text := extract_name_words (pysplit text)

/-- `_extract_path`: the word following the first literal word `file`. -/
def extract_path_words : List Text → Text
  | [] => []
  | w :: rest =>
    if w == str "file" then (match rest with | [] => [] | p :: _ => p)
    else extract_path_words rest

/-- `_extract_path` on the raw text. -/
def extract_path (text : Text) : Text := extract_path_words (pysplit text)

/-- The URL heuristic of `_extract_url` applied to one word. -/
def url_word (w : Text) : Bool :=
  w.contains ('.') && !(decide (w.head? = some '.')) &&
    !(decide (w.getLast? = some '.')) && !(w.contains (' '))

/-- `_extract_url`: the first word that looks like a URL. -/
def extract_url_words : List Text → Text
  | [] => []
  | w :: rest => if url_word w then w else extract_url_words rest

/-- `_extract_url` on the raw text. -/
def extract_url (text : Text) : Text := extract_url_words (pysplit text)

/-- `text.split(keyword, 1)[1]`: the remainder after the first occurrence
of `keyword`, when `keyword` occurs. -/
def split_once_after (keyword : Text) : Text → Option Text
  | [] => none
  | c :: t =>
    if keyword.isPrefixOf (c :: t) then some ((c :: t).drop keyword.length)
    else split_once_after keyword t

/-- The keyword loop of `_extract_search_terms`. -/
def extract_search_terms_go (text : Text) : List Text → Text
  | [] => []
  | k :: ks =>
    if substr_in k text then
      match split_once_after k text with
      | some rest => strip rest
      | none => extract_search_terms_go text ks
    else extract_search_terms_go text ks

/-- `_extract_search_terms`: everything after the first matched search
keyword, stripped. -/
def extract_search_terms (text : Text) : Text :=
  extract_search_terms_go text search_keywords

/-- `int` of a nonempty digit string. -/
def digits_val (ds : Text) : Nat :=
  ds.foldl (fun n c => 10 * n + (c.toNat - ('0').toNat)) 0

/-- `_extract_number`: the first maximal run of decimal digits, as a number
(`re.findall(r'\d+', text)` and `int` of the first match), `none` when the
text has no digit. -/
def extract_number : Text → Option Nat
  | [] => none
  | c :: t =>
    if c.isDigit then some (digits_val (c :: t.takeWhile Char.isDigit))
    else extract_number t

/-- `_detect_browser`. -/
def detect_browser (text : Text) : Text :=
  if substr_in (str "chrome") text then str "chrome"
  else if substr_in (str "firefox") text then str "firefox"
  else str "chrome"

/-- `_detect_app`. -/
def detect_app (text : Text) : Text :=
  match app_names.find? (fun a => substr_in a text) with
  | some a => a
  | none => str "active"

/-- `_parse_vscode_command`.  The source's `"vscode"` type tag is the
spec's `editor` category. -/
def parse_vscode_command (text : Text) : Intent :=
  if vscode_create_words.any (fun kw => substr_in kw text) &&
      vscode_workspace_words.any (fun kw => substr_in kw text) then
    let name := extract_name text
    ⟨Category.editor, str "create_workspace",
      [(str "name", PVal.s (if name.isEmpty then str "new_workspace" else name))]⟩
  else if substr_in (str "file") text then
    ⟨Category.editor, str "open_file", [(str "file", PVal.s (extract_path text))]⟩
  else ⟨Category.editor, str "open", []⟩

/-- `_parse_browser_command`. -/
def parse_browser_command (text : Text) : Intent :=
  let browser := detect_browser text
  let url := extract_url text
  let priv := browser_private_words.any (fun kw => substr_in kw text)
  if search_keywords.any (fun kw => substr_in kw text) then
    ⟨Category.browser, str "search",
      [(str "browser", PVal.s browser), (str "terms", PVal.s (extract_search_terms text)),
       (str "private", PVal.b priv)]⟩
  else if !url.isEmpty then
    ⟨Category.browser, str "open",
      [(str "browser", PVal.s browser), (str "url", PVal.s url),
       (str "private", PVal.b priv)]⟩
  else
    ⟨Category.browser, str "open",
      [(str "browser", PVal.s browser), (str "private", PVal.b priv)]⟩

/-- `_parse_window_command`: first matching action group, else `focus`. -/
def parse_window_command (text : Text) : Intent :=
  match window_actions.find? (fun a => a.2.any (fun kw => substr_in kw text)) with
  | some a => ⟨Category.window, a.1, [(str "app", PVal.s (detect_app text))]⟩
  | none => ⟨Category.window, str "focus", [(str "app", PVal.s (detect_app text))]⟩

/-- `_parse_system_command`: first matching action group, with a numeric
level for `volume` and `brightness`, else `unknown`. -/
def parse_system_command (text : Text) : Intent :=
  match system_actions.find? (fun a => a.2.any (fun kw => substr_in kw text)) with
  | some a =>
    if a.1 == str "volume" then
      ⟨Category.system, str "set_volume",
        [(str "level", PVal.n ((extract_number text).getD 50))]⟩
    else if a.1 == str "brightness" then
      ⟨Category.system, str "set_brightness",
        [(str "level", PVal.n ((extract_number text).getD 50))]⟩
    else ⟨Category.system, a.1, []⟩
  | none => ⟨Category.system, str "unknown", []⟩

/-- `EnhancedCommandProcessor.parse_command`, the spec's `classify`:
normalise, then run the ordered keyword checks, falling back to `ai_query`. -/
def parse_command (input : Text) : Intent :=
  let text := normalize input
  if fuzzy_match_phrases text stop_phrases then ⟨Category.voice, str "stop", []⟩
  else if fuzzy_match_phrases text resume_phrases then ⟨Category.voice, str "resume", []⟩
  else if fuzzy_match_phrases text read_phrases then ⟨Category.voice, str "read", []⟩
  else if screen_words.any (fun w => substr_in w text) then
    if code_words.any (fun w => substr_in w text) then
      ⟨Category.screen, str "read_code", []⟩
    else ⟨Category.screen, str "read", []⟩
  else if vscode_keywords.any (fun kw => substr_in kw text) then parse_vscode_command text
  else if browser_keywords.any (fun kw => substr_in kw text) then parse_browser_command text
  else if window_keywords.any (fun kw => substr_in kw text) then parse_window_command text
  else if system_keywords.any (fun kw => substr_in kw text) then parse_system_command text
  else ⟨Category.ai_query, str "process", [(str "query", PVal.s text)]⟩

/-! Infrastructure for the stop-priority invariant: a phrase that is
all-lowercase with non-whitespace ends survives the classifier's
normalisation as a substring. -/

/-- A substring occurrence makes the boolean containment test true. -/
theorem substr_in_of_infix {p t : Text} (h : p <:+: t) : substr_in p t = true := by
  induction t with
  | nil =>
    rw [List.infix_nil] at h
    subst h
    rfl
  | cons c t ih =>
    rcases List.infix_cons_iff.mp h with hpre | hinf
    · simp [substr_in, List.isPrefixOf_iff_prefix.mpr hpre]
    · simp [substr_in, ih hinf]

/-- An infix whose first character fails the predicate survives `dropWhile`. -/
theorem infix_dropWhile_of_head {pred : Char → Bool} {p : Text} {a : Char}
    (ha : pred a = false) :
    ∀ {l : Text}, (a :: p) <:+: l → (a :: p) <:+: l.dropWhile pred := by
  intro l
  induction l with
  | nil =>
    intro h
    rw [List.infix_nil] at h
    simp at h
  | cons c t ih =>
    intro h
    rw [List.dropWhile_cons]
    by_cases hc : pred c = true
    · rw [if_pos hc]
      rcases List.infix_cons_iff.mp h with hpre | hinf
      · have hac : a = c := (List.cons_prefix_cons.mp hpre).1
        rw [hac, hc] at ha
        exact absurd ha (by simp)
      · exact ih hinf
    · rw [if_neg hc]
      exact h

/-- An infix with non-whitespace first and last characters survives `strip`. -/
theorem infix_strip {p l : Text}
    (hhead : ∃ a, p.head? = some a ∧ a.isWhitespace = false)
    (hlast : ∃ b, p.getLast? = some b ∧ b.isWhitespace = false)
    (h : p <:+: l) : p <:+: strip l := by
  obtain ⟨a, ha1, ha2⟩ := hhead
  obtain ⟨b, hb1, hb2⟩ := hlast
  cases p with
  | nil => simp at ha1
  | cons a0 q =>
    have ha0 : a0 = a := by simpa using ha1
    subst ha0
    unfold strip
    have h1 : (a0 :: q) <:+: l.dropWhile Char.isWhitespace :=
      infix_dropWhile_of_head ha2 h
    have h2 : (a0 :: q).reverse <:+: (l.dropWhile Char.isWhitespace).reverse :=
      List.reverse_infix.mpr h1
    have hrev_head : (a0 :: q).reverse.head? = some b := by
      rw [List.head?_reverse]
      exact hb1
    cases hrw : (a0 :: q).reverse with
    | nil => simp at hrw
    | cons b0 r =>
      have hb0 : b0 = b := by
        rw [hrw] at hrev_head
        simpa using hrev_head
      subst hb0
      rw [hrw] at h2
      have h3 := infix_dropWhile_of_head hb2 h2
      have h4 := List.reverse_infix.mpr h3
      rw [← hrw, List.reverse_reverse] at h4
      exact h4

/-- The first character exists and is not whitespace. -/
def head_not_ws (p : Text) : Bool :=
  match p.head? with
  | some c => !c.isWhitespace
  | none => false

/-- The last character exists and is not whitespace. -/
def last_not_ws (p : Text) : Bool :=
  match p.getLast? with
  | some c => !c.isWhitespace
  | none => false

/-- A phrase that normalisation cannot break: non-whitespace ends, fixed by
lowering. -/
def phrase_ok (p : Text) : Bool :=
  head_not_ws p && last_not_ws p && (lowerT p == p)

theorem head_not_ws_spec {p : Text} (h : head_not_ws p = true) :
    ∃ a, p.head? = some a ∧ a.isWhitespace = false := by
  unfold head_not_ws at h
  cases hp : p.head? with
  | none => rw [hp] at h; simp at h
  | some c =>
    rw [hp] at h
    exact ⟨c, rfl, by simpa using h⟩

theorem last_not_ws_spec {p : Text} (h : last_not_ws p = true) :
    ∃ b, p.getLast? = some b ∧ b.isWhitespace = false := by
  unfold last_not_ws at h
  cases hp : p.getLast? with
  | none => rw [hp] at h; simp at h
  | some c =>
    rw [hp] at h
    exact ⟨c, rfl, by simpa using h⟩

/-- C1: every input containing a phrase of the stop synonym list as a
substring is classified as category `voice`, action `stop`, whatever other
keywords occur elsewhere in the text: the voice-control check runs first
and the `stop` entry is the first entry of `commands['voice_control']`. -/
theorem classify_stop_priority (t p : Text) (hp : p ∈ stop_phrases) (hsub : p <:+: t) :
    parse_command t = ⟨Category.voice, str "stop", []⟩ := by
  have hok : phrase_ok p = true := by
    have hall : ∀ q ∈ stop_phrases, phrase_ok q = true := by decide
    exact hall p hp
  have hok' : (head_not_ws p = true ∧ last_not_ws p = true) ∧ lowerT p = p := by
    simpa [phrase_ok] using hok
  have h1 : lowerT p <:+: lowerT t := List.IsInfix.map Char.toLower hsub
  rw [hok'.2] at h1
  have h2 : p <:+: normalize t :=
    infix_strip (head_not_ws_spec hok'.1.1) (last_not_ws_spec hok'.1.2) h1
  have h3 : substr_in p (normalize t) = true := substr_in_of_infix h2
  have h4 : fuzzy_match_phrases (normalize t) stop_phrases = true := by
    unfold fuzzy_match_phrases
    rw [List.any_eq_true]
    exact ⟨p, hp, by rw [h3]; rfl⟩
  simp [parse_command, h4]

/-- C1 witness: a concrete utterance containing `stop` along with screen,
browser and window keywords is still classified `voice`/`stop`. -/
theorem classify_stop_priority_witness :
    parse_command (str "now stop reading the chrome window") =
      ⟨Category.voice, str "stop", []⟩ :=
  classify_stop_priority _ (str "stop") (by decide) (by decide)

/-- The spec's category enumeration. -/
def all_categories : List Category :=
  [Category.voice, Category.screen, Category.editor, Category.browser,
   Category.window, Category.system, Category.ai_query]

/-- The disjunction of all of `parse_command`'s keyword guards, on the
normalised text. -/
def any_keyword_match (text : Text) : Bool :=
  fuzzy_match_phrases text stop_phrases ||
  fuzzy_match_phrases text resume_phrases ||
  fuzzy_match_phrases text read_phrases ||
  screen_words.any (fun w => substr_in w text) ||
  vscode_keywords.any (fun kw => substr_in kw text) ||
  browser_keywords.any (fun kw => substr_in kw text) ||
  window_keywords.any (fun kw => substr_in kw text) ||
  system_keywords.any (fun kw => substr_in kw text)

/-- C2: `parse_command` is a total deterministic function: its result's
category always lies in the fixed enumeration, identical inputs give
identical results (the embedding is a pure function, so no prior call can
matter), and when no category keyword matches the result is the `ai_query`
fallback carrying the lower-cased, trimmed text as the sole parameter. -/
theorem classify_total_deterministic (t : Text) :
    (parse_command t).category ∈ all_categories ∧
    (∀ t', t' = t → parse_command t' = parse_command t) ∧
    (any_keyword_match (normalize t) = false →
      parse_command t =
        ⟨Category.ai_query, str "process", [(str "query", PVal.s (normalize t))]⟩) := by
  refine ⟨?_, ?_, ?_⟩
  · cases h : (parse_command t).category <;> simp [all_categories]
  · intro t' h
    rw [h]
  · intro h
    simp only [any_keyword_match, Bool.or_eq_false_iff] at h
    obtain ⟨⟨⟨⟨⟨⟨⟨h1, h2⟩, h3⟩, h4⟩, h5⟩, h6⟩, h7⟩, h8⟩ := h
    simp [parse_command, h1, h2, h3, h4, h5, h6, h7, h8]

/-- C6: `classify("open vs code")` yields the editor category (the
source's `"vscode"` tag), action `open`, no parameters, and the category
lies in the fixed enumeration — the keyword `vs code` triggers the editor
branch and no create/workspace/file refinement applies. -/
theorem open_vs_code_classify :
    parse_command (str "open vs code") = ⟨Category.editor, str "open", []⟩ ∧
    (parse_command (str "open vs code")).category ∈ all_categories := by
  constructor
  · decide
  · decide

/-- C3 counterexample: `classify("create workspace called my_app")` is not
the claimed editor / `create_workspace` intent — the text contains no
editor keyword (`vscode`/`vs code`/`visual studio code`/`vs`/`editor`), so
the editor branch is never entered. -/
theorem create_workspace_claim_counterexample :
    parse_command (str "create workspace called my_app") ≠
      ⟨Category.editor, str "create_workspace",
        [(str "name", PVal.s (str "my_app"))]⟩ := by decide

/-- C3 (amended): `"create workspace called my_app"` reaches the window
branch instead — the window keyword `app` occurs inside `my_app` while no
editor keyword (`vscode`/`vs code`/`visual studio code`/`vs`/`editor`)
occurs at all — and no window action keyword matches, so the result is
`window` / `focus` with the default target `"active"`.  Even with an
editor keyword prefixed, as in `"vs create workspace called my_app"`, the
extracted workspace name is `"called"`, not `"my_app"`: the name scan
hits the naming keyword `workspace` first and takes the word after it. -/
theorem create_workspace_actual :
    parse_command (str "create workspace called my_app") =
      ⟨Category.window, str "focus", [(str "app", PVal.s (str "active"))]⟩ ∧
    parse_command (str "vs create workspace called my_app") =
      ⟨Category.editor, str "create_workspace",
        [(str "name", PVal.s (str "called"))]⟩ := by
  constructor
  · decide
  · decide

/-- C4 counterexample: `classify("search for python tutorials")` does not
even land in the browser category — the text contains no browser keyword
(`chrome`/`firefox`/`browser`/`web`/`internet`), so the browser branch is
never entered. -/
theorem search_python_tutorials_counterexample :
    (parse_command (str "search for python tutorials")).category ≠
      Category.browser := by decide

/-- C4 (amended): `"search for python tutorials"` falls through to the
`ai_query` fallback; with a browser keyword present, as in
`"chrome search for python tutorials"`, the result is `browser` / `search`
with the default browser and `private` false, but with terms
`"for python tutorials"` — the extractor keeps everything after the first
occurrence of the matched search keyword, including `for`. -/
theorem search_python_tutorials_actual :
    parse_command (str "search for python tutorials") =
      ⟨Category.ai_query, str "process",
        [(str "query", PVal.s (str "search for python tutorials"))]⟩ ∧
    parse_command (str "chrome search for python tutorials") =
      ⟨Category.browser, str "search",
        [(str "browser", PVal.s (str "chrome")),
         (str "terms", PVal.s (str "for python tutorials")),
         (str "private", PVal.b false)]⟩ := by
  constructor
  · decide
  · decide

/-- C5 counterexample: `classify("set volume to 80")` does not land in the
system category — the text contains no system keyword
(`system`/`computer`/`pc`), so the system branch is never entered. -/
theorem set_volume_claim_counterexample :
    (parse_command (str "set volume to 80")).category ≠ Category.system := by decide

/-- C5 (amended): `"set volume to 80"` and `"set volume"` both fall
through to the `ai_query` fallback; with a system keyword present, the
claimed behaviour holds: `"computer set volume to 80"` yields `system` /
`set_volume` with level 80, and digit-free `"computer set volume"`
defaults the level to 50. -/
theorem set_volume_amended :
    parse_command (str "set volume to 80") =
      ⟨Category.ai_query, str "process",
        [(str "query", PVal.s (str "set volume to 80"))]⟩ ∧
    parse_command (str "computer set volume to 80") =
      ⟨Category.system, str "set_volume", [(str "level", PVal.n 80)]⟩ ∧
    parse_command (str "computer set volume") =
      ⟨Category.system, str "set_volume", [(str "level", PVal.n 50)]⟩ := by
  refine ⟨?_, ?_, ?_⟩
  · decide
  · decide
  · decide

/-! Part 2a: the chunking policy `EnhancedVoiceManager._chunk_text` of
`src/src/voice_manager.py`: split into sentence-like units at
sentence-terminal punctuation followed by whitespace, then greedily pack
the words of any unit longer than 100 characters into sub-chunks, flushing
a sub-chunk as soon as its space-joined length exceeds 80. -/

/-- A sentence-terminal character (the class `[.!?]`). -/
def sent_punct (c : Char) : Bool := c == '.' || c == '!' || c == '?'

/-- The text starts with a whitespace character. -/
def head_is_ws : Text → Bool
  | [] => false
  | d :: _ => d.isWhitespace

/-- The scanner behind `re.split(r'(?<=[.!?])\s+', text)`: cut after a
sentence-terminal character followed by whitespace, consuming the
whitespace run. -/
def sent_split_aux : Text → Text → List Text
  | [], acc => [acc.reverse]
  | c :: rest, acc =>
    if sent_punct c && head_is_ws rest then
      (acc.reverse ++ [c]) :: sent_split_aux (rest.dropWhile Char.isWhitespace) []
    else sent_split_aux rest (c :: acc)
termination_by t _ => t.length
decreasing_by
  · exact Nat.lt_succ_of_le ((List.dropWhile_sublist Char.isWhitespace).length_le)
  · exact Nat.lt_succ_self _

/-- The sentence split of `_chunk_text`. -/
def sent_split (t : Text) : List Text := sent_split_aux t []

/-- Whether the text contains a sentence split point at all. -/
def has_sent_break : Text → Bool
  | [] => false
  | c :: rest => (sent_punct c && head_is_ws rest) || has_sent_break rest

/-- `' '.join(words)`. -/
def join_words : List Text → Text
  | [] => []
  | w :: ws => w ++ ws.bind (fun v => ' ' :: v)

/-- The greedy packing loop of `_chunk_text` for a unit longer than 100
characters: append each word to the current sub-chunk and flush the
sub-chunk once its joined length exceeds 80; a nonempty remainder is kept
as a final sub-chunk. -/
def pack_words : List Text → List Text → List Text
  | [], cur => if cur.isEmpty then [] else [join_words cur]
  | w :: ws, cur =>
    if 80 < (join_words (cur ++ [w])).length then
      join_words (cur ++ [w]) :: pack_words ws []
    else pack_words ws (cur ++ [w])

/-- `EnhancedVoiceManager._chunk_text`. -/
def chunk_text (t : Text) : List Text :=
  (sent_split t).bind (fun c =>
    if 100 < c.length then pack_words (pysplit c) [] else [c])

/-- A text with no sentence split point is one single unit. -/
theorem sent_split_aux_of_no_break : ∀ (t acc : Text), has_sent_break t = false →
    sent_split_aux t acc = [acc.reverse ++ t] := by
  intro t
  induction t with
  | nil =>
    intro acc _
    simp [sent_split_aux]
  | cons c rest ih =>
    intro acc h
    unfold has_sent_break at h
    rw [Bool.or_eq_false_iff] at h
    unfold sent_split_aux
    rw [h.1]
    simp [ih (c :: acc) h.2]

theorem sent_split_of_no_break {t : Text} (h : has_sent_break t = false) :
    sent_split t = [t] := by
  simpa [sent_split] using sent_split_aux_of_no_break t [] h

/-- Length of a join extended by one word. -/
theorem join_words_append (ws : List Text) (w : Text) :
    (join_words (ws ++ [w])).length =
      if ws.isEmpty then w.length else (join_words ws).length + 1 + w.length := by
  cases ws with
  | nil => simp [join_words]
  | cons x l =>
    simp [join_words, List.append_bind]
    omega

/-- Every chunk the packing loop emits is bounded by 81 plus the length of
one input word: a flushed chunk exceeded 80 only by its last word plus the
separating space, and the remainder never exceeded 80 at all. -/
theorem pack_words_length_le {W : Nat} : ∀ (ws cur : List Text),
    (∀ w ∈ ws, w.length ≤ W) → (join_words cur).length ≤ 80 →
    ∀ c ∈ pack_words ws cur, c.length ≤ 81 + W := by
  intro ws
  induction ws with
  | nil =>
    intro cur _ hcur c hc
    unfold pack_words at hc
    by_cases h : cur.isEmpty
    · rw [if_pos h] at hc
      simp at hc
    · rw [if_neg h] at hc
      rw [List.mem_singleton] at hc
      subst hc
      omega
  | cons w ws ih =>
    intro cur hws hcur c hc
    have hw : w.length ≤ W := hws w (List.mem_cons_self w ws)
    have hws' : ∀ v ∈ ws, v.length ≤ W := fun v hv => hws v (List.mem_cons_of_mem _ hv)
    unfold pack_words at hc
    by_cases h80 : 80 < (join_words (cur ++ [w])).length
    · rw [if_pos h80] at hc
      rcases List.mem_cons.mp hc with hceq | hc'
      · subst hceq
        have := join_words_append cur w
        by_cases hemp : cur.isEmpty
        · rw [if_pos hemp] at this
          omega
        · rw [if_neg hemp] at this
          omega
      · exact ih [] hws' (by simp [join_words]) c hc'
    · rw [if_neg h80] at hc
      exact ih (cur ++ [w]) hws' (Nat.le_of_not_lt h80) c hc

/-- The packing loop emits exactly the joins of a partition of its input
(carried chunk followed by remaining words) into nonempty groups. -/
theorem pack_words_partition : ∀ (ws cur : List Text),
    ∃ gs : List (List Text), pack_words ws cur = gs.map join_words ∧
      gs.join = cur ++ ws ∧ ∀ g ∈ gs, g ≠ [] := by
  intro ws
  induction ws with
  | nil =>
    intro cur
    by_cases h : cur.isEmpty
    · refine ⟨[], by simp [pack_words, h], ?_, by simp⟩
      simp [List.isEmpty_iff.mp h]
    · exact ⟨[cur], by simp [pack_words, h], by simp, by
        intro g hg
        rw [List.mem_singleton] at hg
        subst hg
        simpa [List.isEmpty_iff] using h⟩
  | cons w ws ih =>
    intro cur
    by_cases h80 : 80 < (join_words (cur ++ [w])).length
    · obtain ⟨gs, h1, h2, h3⟩ := ih []
      refine ⟨(cur ++ [w]) :: gs, by simp [pack_words, h80, h1], ?_, ?_⟩
      · simp at h2
        simp [h2]
      · intro g hg
        rcases List.mem_cons.mp hg with hgeq | hg'
        · subst hgeq
          simp
        · exact h3 g hg'
    · obtain ⟨gs, h1, h2, h3⟩ := ih (cur ++ [w])
      refine ⟨gs, by simp [pack_words, h80, h1], ?_, h3⟩
      rw [h2]
      simp

/-- Every emitted chunk is the join of a nonempty block of consecutive
input words: the packing loop never splits a word. -/
theorem pack_words_chunks_infix : ∀ (ws cur : List Text), ∀ c ∈ pack_words ws cur,
    ∃ g, g ≠ [] ∧ g <:+: (cur ++ ws) ∧ c = join_words g := by
  intro ws
  induction ws with
  | nil =>
    intro cur c hc
    unfold pack_words at hc
    by_cases h : cur.isEmpty
    · rw [if_pos h] at hc
      simp at hc
    · rw [if_neg h] at hc
      rw [List.mem_singleton] at hc
      subst hc
      exact ⟨cur, by simpa [List.isEmpty_iff] using h, by simp, rfl⟩
  | cons w ws ih =>
    intro cur c hc
    unfold pack_words at hc
    by_cases h80 : 80 < (join_words (cur ++ [w])).length
    · rw [if_pos h80] at hc
      rcases List.mem_cons.mp hc with hceq | hc'
      · refine ⟨cur ++ [w], by simp, ⟨[], ws, by simp⟩, hceq⟩
      · obtain ⟨g, hg1, hg2, hg3⟩ := ih [] c hc'
        refine ⟨g, hg1, ?_, hg3⟩
        simp at hg2
        obtain ⟨s, u, hsu⟩ := hg2
        exact ⟨cur ++ [w] ++ s, u, by simp [← hsu]⟩
    · rw [if_neg h80] at hc
      obtain ⟨g, hg1, hg2, hg3⟩ := ih (cur ++ [w]) c hc
      refine ⟨g, hg1, ?_, hg3⟩
      simpa using hg2

/-- C7 counterexample: a single-sentence input of 250 characters that is
one unbroken word yields exactly one chunk, of length 250: the claim's
"more than one chunk, each at most about 80 characters" fails on it. -/
theorem chunk_text_claim_counterexample :
    (chunk_text (List.replicate 250 'a')).length = 1 ∧
    ∀ c ∈ chunk_text (List.replicate 250 'a'), c.length = 250 := by
  have hb : has_sent_break (List.replicate 250 'a') = false := by decide
  have hct : chunk_text (List.replicate 250 'a') =
      pack_words (pysplit (List.replicate 250 'a')) [] := by
    unfold chunk_text
    rw [sent_split_of_no_break hb]
    simp
  rw [hct]
  decide

/-- C7 (amended): for a break-free unit longer than 100 characters whose
words are each at most 10 characters and whose space-join is longer than
91 characters (as for a typical 250-character sentence), the chunking
yields at least two chunks, every chunk has length at most 91 (81 plus one
word), and every chunk is the space-join of a nonempty block of
consecutive input words, so no word is split. -/
theorem chunk_text_long_sentence (t : Text)
    (hb : has_sent_break t = false) (hl : 100 < t.length)
    (hw : ∀ w ∈ pysplit t, w.length ≤ 10)
    (hj : 91 < (join_words (pysplit t)).length) :
    2 ≤ (chunk_text t).length ∧
    (∀ c ∈ chunk_text t, c.length ≤ 91) ∧
    (∀ c ∈ chunk_text t, ∃ g, g ≠ [] ∧ g <:+: pysplit t ∧ c = join_words g) := by
  have hct : chunk_text t = pack_words (pysplit t) [] := by
    unfold chunk_text
    rw [sent_split_of_no_break hb]
    simp [hl]
  have hbound : ∀ c ∈ pack_words (pysplit t) [], c.length ≤ 91 := by
    intro c hc
    have := pack_words_length_le (W := 10) (pysplit t) [] hw (by simp [join_words]) c hc
    omega
  refine ⟨?_, by rw [hct]; exact hbound, ?_⟩
  · obtain ⟨gs, h1, h2, h3⟩ := pack_words_partition (pysplit t) []
    simp at h2
    rw [hct, h1, List.length_map]
    match gs, h1, h2 with
    | [], h1, h2 =>
      rw [← h2] at hj
      simp [join_words] at hj
    | [g], h1, h2 =>
      have hmem : join_words g ∈ pack_words (pysplit t) [] := by
        rw [h1]
        simp
      have := hbound _ hmem
      rw [List.join] at h2
      simp at h2
      rw [← h2] at hj
      omega
    | g₁ :: g₂ :: gs', h1, h2 => simp
  · intro c hc
    rw [hct] at hc
    obtain ⟨g, hg1, hg2, hg3⟩ := pack_words_chunks_infix (pysplit t) [] c hc
    exact ⟨g, hg1, by simpa using hg2, hg3⟩

/-- A 250-character single-sentence text: 50 space-separated words, the
last one ending in `!` (no whitespace follows it, so no split point). -/
def sample_sentence : Text := join_words (List.replicate 50 (str "abcd")) ++ str "!"

/-- C7 witness: the amended statement at the concrete 250-character
sentence `sample_sentence`. -/
theorem chunk_text_long_sentence_witness :
    2 ≤ (chunk_text sample_sentence).length ∧
    (∀ c ∈ chunk_text sample_sentence, c.length ≤ 91) ∧
    (∀ c ∈ chunk_text sample_sentence, ∃ g, g ≠ [] ∧
      g <:+: pysplit sample_sentence ∧ c = join_words g) :=
  chunk_text_long_sentence sample_sentence (by decide) (by decide) (by decide) (by decide)

/-! Part 2b: the speech-output controller of `src/src/voice_manager.py` as
a deterministic transition system.  The shared state mirrors
`EnhancedVoiceManager`'s fields: the queue contents, the remaining chunks
of the item the worker is playing (`none` when the worker waits on the
queue), the flags `stop_speaking` (the `threading.Event`), `paused` and
`speaking`.  For the proofs the state also records, as history, every
chunk handed to `engine.say`, tagged with a running index of the item it
belongs to.  The worker's loop body at chunk granularity (the unit at
which the source polls its flags), queue insertion by `speak`, and the
`interrupt_speech`/`resume_speech` handlers are the transition labels;
calls into the external `pyttsx3` engine and console printing are outside
the model. -/

/-- The controller state. -/
structure VMState where
  queue : List Text
  current : Option (List Text)
  itemIdx : Nat
  stop_speaking : Bool
  paused : Bool
  speaking : Bool
  spoken : List (Nat × Text)
  deriving DecidableEq

/-- A transition label: a `speak(text)` call, one iteration of the worker
(dequeue, per-chunk poll/say, or end of item), an `interrupt_speech()`
call, or a `resume_speech()` call. -/
inductive VMEvent where
  | speak (text : Text)
  | work
  | interrupt
  | resume
  deriving DecidableEq

/-- One step of `_speech_worker` at chunk granularity.  With no current
item it blocks on an empty queue or dequeues (`get`, `speaking = True`,
`stop_speaking.clear()`, chunking).  With chunks left it first breaks out
of the loop when the stop flag is set (both the pause-wait loop and the
per-chunk check break on it, abandoning all remaining chunks), else waits
while paused, else hands the next chunk to the engine.  With no chunk left
it finishes the item (`speaking = False`). -/
def speech_worker_step (s : VMState) : VMState :=
  match s.current with
  | none =>
    match s.queue with
    | [] => s
    | item :: rest =>
      { s with queue := rest, current := some (chunk_text item),
               itemIdx := s.itemIdx + 1, speaking := true, stop_speaking := false }
  | some [] => { s with current := none, speaking := false }
  | some (c :: cs) =>
    if s.stop_speaking then { s with current := none, speaking := false }
    else if s.paused then s
    else { s with spoken := s.spoken ++ [(s.itemIdx, c)], current := some cs }

/-- The transition function.  `speak` enqueues nonempty text only
(`if text:`); `interrupt_speech` acts only while speaking, setting the
stop flag and `paused` and clearing `speaking`; `resume_speech` only
clears `paused`. -/
def vm_step (s : VMState) : VMEvent → VMState
  | VMEvent.speak text => if text.isEmpty then s else { s with queue := s.queue ++ [text] }
  | VMEvent.work => speech_worker_step s
  | VMEvent.interrupt =>
    if s.speaking then
      { s with stop_speaking := true, paused := true, speaking := false }
    else s
  | VMEvent.resume => if s.paused then { s with paused := false } else s

/-- Run a sequence of events. -/
def vm_run (s : VMState) : List VMEvent → VMState
  | [] => s
  | e :: es => vm_run (vm_step s e) es

/-- The freshly initialised controller of `__init__`. -/
def vm_init : VMState := ⟨[], none, 0, false, false, false, []⟩

/-- One-step preservation for the interrupt invariant: while item `n` is
current only with the stop flag set (or is no longer current), a single
step speaks no chunk of item `n`, keeps the item counter at or above `n`,
and preserves the invariant — the stop flag is cleared only when a later
item is dequeued. -/
theorem vm_step_no_say (n : Nat) (s : VMState) (e : VMEvent)
    (hle : n ≤ s.itemIdx)
    (hinv : s.itemIdx = n → s.current = none ∨ s.stop_speaking = true) :
    (∃ e0, (vm_step s e).spoken = s.spoken ++ e0 ∧ ∀ p ∈ e0, p.1 ≠ n) ∧
    n ≤ (vm_step s e).itemIdx ∧
    ((vm_step s e).itemIdx = n →
      (vm_step s e).current = none ∨ (vm_step s e).stop_speaking = true) := by
  cases e with
  | speak text =>
    by_cases h : text.isEmpty
    · simp only [vm_step, if_pos h]
      exact ⟨⟨[], by simp, by simp⟩, hle, hinv⟩
    · simp only [vm_step, if_neg h]
      exact ⟨⟨[], by simp, by simp⟩, hle, hinv⟩
  | work =>
    cases hcur : s.current with
    | none =>
      cases hq : s.queue with
      | nil =>
        simp only [vm_step, speech_worker_step, hcur, hq]
        exact ⟨⟨[], by simp, by simp⟩, hle, fun _ => Or.inl trivial⟩
      | cons item rest =>
        simp only [vm_step, speech_worker_step, hcur, hq]
        refine ⟨⟨[], by simp, by simp⟩, Nat.le_succ_of_le hle, ?_⟩
        intro hidx
        omega
    | some cs =>
      cases cs with
      | nil =>
        simp only [vm_step, speech_worker_step, hcur]
        exact ⟨⟨[], by simp, by simp⟩, hle, fun _ => Or.inl trivial⟩
      | cons c cs' =>
        simp only [vm_step, speech_worker_step, hcur]
        by_cases hstop : s.stop_speaking = true
        · rw [if_pos hstop]
          exact ⟨⟨[], by simp, by simp⟩, hle, fun _ => Or.inl rfl⟩

        · rw [if_neg hstop]
          by_cases hpause : s.paused = true
          · rw [if_pos hpause]
            exact ⟨⟨[], by simp, by simp⟩, hle, hinv⟩
          · rw [if_neg hpause]
            have hne : s.itemIdx ≠ n := by
              intro heq
              rcases hinv heq with h1 | h2
              · rw [hcur] at h1
                exact Option.noConfusion h1
              · exact hstop h2
            refine ⟨⟨[(s.itemIdx, c)], by simp, ?_⟩, hle, ?_⟩
            · intro p hp
              rw [List.mem_singleton] at hp
              subst hp
              exact hne
            · intro heq
              exact absurd heq hne
  | interrupt =>
    by_cases h : s.speaking = true
    · simp only [vm_step, if_pos h]
      exact ⟨⟨[], by simp, by simp⟩, hle, fun _ => Or.inr trivial⟩
    · simp only [vm_step, if_neg h]
      exact ⟨⟨[], by simp, by simp⟩, hle, hinv⟩
  | resume =>
    by_cases h : s.paused = true
    · simp only [vm_step, if_pos h]
      exact ⟨⟨[], by simp, by simp⟩, hle, hinv⟩
    · simp only [vm_step, if_neg h]
      exact ⟨⟨[], by simp, by simp⟩, hle, hinv⟩

/-- Core invariant behind the interrupt semantics, run over any event
sequence: while the stop flag is set for current item `n`, no chunk tagged
`n` is ever handed to the engine again. -/
theorem vm_no_say_of_stopped (n : Nat) : ∀ (evs : List VMEvent) (s : VMState),
    n ≤ s.itemIdx → (s.itemIdx = n → s.current = none ∨ s.stop_speaking = true) →
    ∃ extra, (vm_run s evs).spoken = s.spoken ++ extra ∧ ∀ p ∈ extra, p.1 ≠ n := by
  intro evs
  induction evs with
  | nil =>
    intro s _ _
    exact ⟨[], by simp [vm_run], by simp⟩
  | cons e es ih =>
    intro s hle hinv
    obtain ⟨⟨e0, he1, he2⟩, h3, h4⟩ := vm_step_no_say n s e hle hinv
    obtain ⟨extra, hx1, hx2⟩ := ih (vm_step s e) h3 h4
    refine ⟨e0 ++ extra, ?_, ?_⟩
    · show (vm_run (vm_step s e) es).spoken = _
      rw [hx1, he1, List.append_assoc]
    · intro p hp
      rcases List.mem_append.mp hp with h | h
      · exact he2 p h
      · exact hx2 p h

/-- C8: once `interrupt()` has set the cancellation flag during an item's
playback, none of that item's remaining chunks is ever passed to the
speech engine under any continuation — including ones containing
`resume()` — and a `resume()` step only clears the paused flag, leaving
queue, current item, counters, flags and spoken history unchanged, so it
can affect only subsequently dequeued items. -/
theorem interrupt_discards_remaining (s : VMState) (evs : List VMEvent)
    (hstop : s.stop_speaking = true) :
    (∃ extra, (vm_run s evs).spoken = s.spoken ++ extra ∧
      ∀ p ∈ extra, p.1 ≠ s.itemIdx) ∧
    (∀ s' : VMState, (vm_step s' VMEvent.resume).queue = s'.queue ∧
      (vm_step s' VMEvent.resume).current = s'.current ∧
      (vm_step s' VMEvent.resume).itemIdx = s'.itemIdx ∧
      (vm_step s' VMEvent.resume).stop_speaking = s'.stop_speaking ∧
      (vm_step s' VMEvent.resume).speaking = s'.speaking ∧
      (vm_step s' VMEvent.resume).spoken = s'.spoken ∧
      (vm_step s' VMEvent.resume).paused = false ∨
        vm_step s' VMEvent.resume = s') := by
  constructor
  · exact vm_no_say_of_stopped s.itemIdx evs s le_rfl (fun _ => Or.inr hstop)
  · intro s'
    by_cases h : s'.paused = true
    · left
      simp [vm_step, h]
    · right
      simp [vm_step, h]

/-- A state just after an interrupt during playback of item 1: chunk
`"head"` already spoken, two chunks abandoned, one item still queued. -/
def vm_interrupted : VMState :=
  ⟨[str "next item"], some [str "tail one", str "tail two"], 1,
   true, true, false, [(1, str "head")]⟩

/-- C8 witness: the interrupt-discard property at the concrete state
`vm_interrupted` for a continuation that resumes and keeps working. -/
theorem interrupt_discards_remaining_witness :
    (∃ extra, (vm_run vm_interrupted
        [VMEvent.resume, VMEvent.work, VMEvent.work, VMEvent.speak (str "hi"),
         VMEvent.work, VMEvent.work, VMEvent.work]).spoken =
      vm_interrupted.spoken ++ extra ∧ ∀ p ∈ extra, p.1 ≠ vm_interrupted.itemIdx) ∧
    (∀ s' : VMState, (vm_step s' VMEvent.resume).queue = s'.queue ∧
      (vm_step s' VMEvent.resume).current = s'.current ∧
      (vm_step s' VMEvent.resume).itemIdx = s'.itemIdx ∧
      (vm_step s' VMEvent.resume).stop_speaking = s'.stop_speaking ∧
      (vm_step s' VMEvent.resume).speaking = s'.speaking ∧
      (vm_step s' VMEvent.resume).spoken = s'.spoken ∧
      (vm_step s' VMEvent.resume).paused = false ∨
        vm_step s' VMEvent.resume = s') :=
  interrupt_discards_remaining vm_interrupted
    [VMEvent.resume, VMEvent.work, VMEvent.work, VMEvent.speak (str "hi"),
     VMEvent.work, VMEvent.work, VMEvent.work] rfl

/-- C9: `interrupt()` is idempotent: when nothing is being spoken it is a
no-op (the whole handler is guarded by `if self.speaking:`), a second call
right after a first changes nothing further, and after any call
`speaking` is false and no exception can arise (the step is total). -/
theorem interrupt_idempotent (s : VMState) :
    (s.speaking = false → vm_step s VMEvent.interrupt = s) ∧
    vm_step (vm_step s VMEvent.interrupt) VMEvent.interrupt =
      vm_step s VMEvent.interrupt ∧
    (vm_step s VMEvent.interrupt).speaking = false := by
  by_cases h : s.speaking = true
  · refine ⟨fun hfalse => absurd h (by simp [hfalse]), ?_, ?_⟩
    · simp only [vm_step, if_pos h]
      rw [if_neg]
      simp
    · simp only [vm_step, if_pos h]
  · have hfalse : s.speaking = false := by
      cases hs : s.speaking
      · rfl
      · exact absurd hs h
    refine ⟨fun _ => by simp only [vm_step, if_neg h], ?_, ?_⟩
    · simp only [vm_step, if_neg h]
    · simp [vm_step, h, hfalse]

/-- C10: `speak("")` is a silent no-op: the `if text:` guard filters the
empty string, so the queue (and the whole state) is unchanged, every later
run behaves as if the call had not happened (nothing is ever vocalized for
it), and no error reaches the caller (the step is total). -/
theorem speak_empty_noop (s : VMState) :
    vm_step s (VMEvent.speak []) = s ∧
    ∀ evs, vm_run (vm_step s (VMEvent.speak [])) evs = vm_run s evs := by
  have h : vm_step s (VMEvent.speak []) = s := by
    simp [vm_step]
  exact ⟨h, fun evs => by rw [h]⟩

end DebugAssistant
